import Mathlib

/-!
Verification of the self-scaling worker-thread pool of this repository
(src/thread/threadpool/thread-pool.h, thread-pool.c).

The header fixes the data model: `tp_thread_info_s` (thread_id, is_busy,
th_work/th_job, exit, is_wait), `tp_thread_pool_s` (min_th_num, cur_th_num,
max_th_num, thread_info, operation table), and the compile-time constants
`BUSY_THRESHOLD 0.5` and `MANAGE_INTERVAL 5`.  The .c file under src/ contains
only the forward declarations of tp_init, tp_close, tp_process_job,
tp_get_thread_by_id, tp_add_thread, tp_delete_thread, tp_get_tp_status,
tp_work_thread and tp_manage_thread; their bodies are not part of src/, so the
operations below are modelled from the specification's component design
(spec sections 4.1-4.7).

The embedding is sequential and atomic: each pool operation is a pure state
transformer `Pool → Result × Pool` (state passing makes frame conditions real
theorems), a worker's RUNNING phase is collapsed to a single `tp_run_job`
step, and `tp_delete_thread` removes the chosen idle slot synchronously (the
spec's "synchronously ... removes its slot" option), so the transient
sub-minimum window of a lazy decrement does not arise.  A job is identified by
a token (Nat) standing for the (work-function, argument) pair; executing the
job appends its token to an execution trace.
-/

namespace ThreadPool

/-- Error taxonomy of the spec (section 7). -/
inductive TpError where
  | InvalidConfig
  | SpawnFailure
  | PoolSaturated
  | NoIdleWorker
deriving DecidableEq, Repr

/-- Per-thread state, from `struct tp_thread_info_s` in thread-pool.h:
`thread_id`, `is_busy`, `th_work`/`th_job` (modelled as one optional job
token), `exit`, `is_wait`.  The condition variable and mutex have no
sequential content. -/
structure ThreadInfo where
  thread_id : Nat
  is_busy : Bool
  th_job : Option Nat
  exit : Bool
  is_wait : Bool
deriving DecidableEq, Repr

/-- Pool state, from `struct tp_thread_pool_s` in thread-pool.h:
`min_th_num`, `cur_th_num`, `max_th_num`, `thread_info`.  `next_id` models
the source of fresh thread identities (spec: identities are stable and never
reused). -/
structure Pool where
  min_th_num : Nat
  cur_th_num : Nat
  max_th_num : Nat
  thread_info : List ThreadInfo
  next_id : Nat
deriving DecidableEq, Repr

/-- `#define BUSY_THRESHOLD 0.5` (thread-pool.h line 20), as an exact
rational. -/
def BUSY_THRESHOLD : ℚ := 1/2

/-- `#define MANAGE_INTERVAL 5` (thread-pool.h line 21). -/
def MANAGE_INTERVAL : Nat := 5

/-- First index of the list satisfying the predicate (the C scan loop over
`thread_info`). -/
def findIndex (p : α → Bool) : List α → Option Nat
  | [] => none
  | x :: xs => if p x then some 0 else (findIndex p xs).map (· + 1)

/-- Replace the element at an index by its image under `f` (in-place slot
update in the C array). -/
def modifyAt (f : α → α) : Nat → List α → List α
  | _, [] => []
  | 0, x :: xs => f x :: xs
  | n + 1, x :: xs => x :: modifyAt f n xs

/-- Remove the element at an index (compaction of an exited worker's slot). -/
def removeAt : Nat → List α → List α
  | _, [] => []
  | 0, _ :: xs => xs
  | n + 1, x :: xs => x :: removeAt n xs

/-- Number of busy workers: `count(is_busy=true)` over the slots. -/
def busyCount (p : Pool) : Nat := p.thread_info.countP (fun sl => sl.is_busy)

/-- A freshly spawned worker slot: idle, no job, not exiting, parked waiting
(spec 4.3, state WAITING). -/
def mkSlot (id : Nat) : ThreadInfo :=
  { thread_id := id, is_busy := false, th_job := none, exit := false, is_wait := true }

/-- A slot that can take work: `is_busy=false` and `exit_requested=false`
(spec 4.2). -/
def idleSlot (sl : ThreadInfo) : Bool := !sl.is_busy && !sl.exit

/-- Assign a job to a slot: sets the payload, `is_busy:=true`, leaves WAITING
(spec 4.2). -/
def assignJob (j : Nat) (sl : ThreadInfo) : ThreadInfo :=
  { sl with is_busy := true, th_job := some j, is_wait := false }

/-- A worker finishing its job: payload cleared once consumed, `is_busy`
reset, back to WAITING (spec 4.3). -/
def finishJob (sl : ThreadInfo) : ThreadInfo :=
  { sl with is_busy := false, th_job := none, is_wait := true }

/-- Modelled from the spec: `create_thread_pool` (declared in thread-pool.h
line 58, body absent from src/).  Spec 4.1: validates `0 < min ≤ max`, fails
with `InvalidConfig` otherwise; on success the pool starts with `min_count`
registered, waiting workers and `current_count = min_count`. -/
def create_thread_pool (min_num max_num : Int) : Except TpError Pool :=
  if 0 < min_num ∧ min_num ≤ max_num then
    Except.ok
      { min_th_num := min_num.toNat
        cur_th_num := min_num.toNat
        max_th_num := max_num.toNat
        thread_info := (List.range min_num.toNat).map mkSlot
        next_id := min_num.toNat }
  else
    Except.error TpError.InvalidConfig

/-- Modelled from the spec: `tp_add_thread` (declared in thread-pool.c line
20, body absent from src/).  Spec 4.4: spawns one worker, appends its slot,
increments `current_count`; fails with `SpawnFailure` on thread-creation
error, leaving `current_count` unchanged.  `spawnOk` is the outcome of the
underlying thread creation. -/
def tp_add_thread (spawnOk : Bool) (p : Pool) : Except TpError Unit × Pool :=
  if spawnOk then
    (Except.ok (),
      { p with
        cur_th_num := p.cur_th_num + 1
        thread_info := p.thread_info ++ [mkSlot p.next_id]
        next_id := p.next_id + 1 })
  else
    (Except.error TpError.SpawnFailure, p)

/-- Modelled from the spec: `tp_delete_thread` (declared in thread-pool.c
line 21, body absent from src/).  Spec 4.5: selects one currently idle
(`is_busy=false`) worker, never a busy one, signals it to exit and removes
its slot (synchronous variant); fails with `NoIdleWorker` when every live
worker is busy, signalling nobody. -/
def tp_delete_thread (p : Pool) : Except TpError Unit × Pool :=
  match findIndex (fun sl => !sl.is_busy) p.thread_info with
  | none => (Except.error TpError.NoIdleWorker, p)
  | some i =>
      (Except.ok (),
        { p with
          cur_th_num := p.cur_th_num - 1
          thread_info := removeAt i p.thread_info })

/-- Modelled from the spec: `tp_process_job` (declared in thread-pool.c line
18, body absent from src/).  Spec 4.2, default non-blocking mode: scan for an
idle, non-exiting slot and assign the job there; if none and
`current_count < max_count`, grow by one worker and assign to it; if none and
`current_count == max_count`, fail with `PoolSaturated`. -/
def tp_process_job (p : Pool) (j : Nat) : Except TpError Unit × Pool :=
  match findIndex idleSlot p.thread_info with
  | some i => (Except.ok (), { p with thread_info := modifyAt (assignJob j) i p.thread_info })
  | none =>
      if p.cur_th_num < p.max_th_num then
        (Except.ok (),
          { p with
            cur_th_num := p.cur_th_num + 1
            thread_info := p.thread_info ++ [assignJob j (mkSlot p.next_id)]
            next_id := p.next_id + 1 })
      else
        (Except.error TpError.PoolSaturated, p)

/-- Modelled from the spec: `tp_get_thread_by_id` (declared in thread-pool.h
line 45 and thread-pool.c line 19, body absent from src/): index of the slot
whose `thread_id` equals the given identity, `none` as the distinguished
error value when no live slot has it; a pure scan. -/
def tp_get_thread_by_id (p : Pool) (id : Nat) : Option Nat × Pool :=
  (findIndex (fun sl => sl.thread_id == id) p.thread_info, p)

/-- The status snapshot `{current_count, busy_count, min_count, max_count}`
of spec 4.7. -/
structure TpStatus where
  current_count : Nat
  busy_count : Nat
  min_count : Nat
  max_count : Nat
deriving DecidableEq, Repr

/-- Modelled from the spec: `tp_get_tp_status` (declared in thread-pool.h
line 48 and thread-pool.c line 22, body absent from src/).  Spec 4.7: a pure
query returning the four counters, leaving the pool untouched. -/
def tp_get_tp_status (p : Pool) : TpStatus × Pool :=
  ({ current_count := p.cur_th_num
     busy_count := busyCount p
     min_count := p.min_th_num
     max_count := p.max_th_num }, p)

/-- Modelled from the spec: one tick of `tp_manage_thread` (declared in
thread-pool.c line 14, body absent from src/).  Spec 4.6: with
`utilization = busy_count / current_count`, if `utilization > BUSY_THRESHOLD`
and `current_count < max_count` call add_thread; else if
`utilization < BUSY_THRESHOLD` and `current_count > min_count` call
delete_thread best-effort (a `NoIdleWorker` failure is ignored); otherwise do
not resize.  The comparison `busy/cur > 1/2` is computed exactly as
`2*busy > cur`. -/
def tp_manage_thread (spawnOk : Bool) (p : Pool) : Pool :=
  if 2 * busyCount p > p.cur_th_num ∧ p.cur_th_num < p.max_th_num then
    (tp_add_thread spawnOk p).2
  else if 2 * busyCount p < p.cur_th_num ∧ p.min_th_num < p.cur_th_num then
    (tp_delete_thread p).2
  else
    p

/-- Modelled from the spec: the RUNNING phase of `tp_work_thread` (declared
in thread-pool.c line 13, body absent from src/), collapsed to one step: the
worker at slot `i` invokes its assigned work function once and returns to
WAITING with `is_busy` reset (spec 4.3). -/
def tp_run_job (p : Pool) (i : Nat) : Pool :=
  { p with thread_info := modifyAt finishJob i p.thread_info }

/-! ### The pool as a transition system

Spec section 5: workers, the manager and submitters run in parallel; the
pool lock totally orders all structural mutations, so an execution is a
sequence of atomic pool transitions.  `Sys` pairs the pool with the trace of
submitted and executed job tokens; `Step` has one constructor per
lock-protected transition: a successful submit, a worker running its
assigned job to completion, and a manager tick. -/

structure Sys where
  pool : Pool
  executed : List Nat
  submitted : List Nat

/-- One atomic transition of the pool (spec sections 4.2, 4.3, 4.6). -/
inductive Step : Sys → Sys → Prop where
  | submit (s : Sys) (j : Nat) (p' : Pool)
      (h : tp_process_job s.pool j = (Except.ok (), p')) :
      Step s { pool := p', executed := s.executed, submitted := j :: s.submitted }
  | run (s : Sys) (i : Nat) (sl : ThreadInfo) (j : Nat)
      (hsl : s.pool.thread_info.get? i = some sl) (hj : sl.th_job = some j) :
      Step s { pool := tp_run_job s.pool i, executed := j :: s.executed,
               submitted := s.submitted }
  | tick (s : Sys) (spawnOk : Bool) :
      Step s { pool := tp_manage_thread spawnOk s.pool, executed := s.executed,
               submitted := s.submitted }

/-- Initial states: a pool freshly returned by `create_thread_pool`, with an
empty trace. -/
def SysInit (s : Sys) : Prop :=
  ∃ mn mx p, create_thread_pool mn mx = Except.ok p ∧
    s = { pool := p, executed := [], submitted := [] }

/-- States reachable from creation by atomic pool transitions. -/
def Reachable (s : Sys) : Prop :=
  ∃ s₀, SysInit s₀ ∧ Relation.ReflTransGen Step s₀ s

/-- Structural pool invariant: `cur_th_num` counts the slots, the counters
respect the configured bounds, `is_busy` mirrors job possession and no live
slot is exit-requested (exits are compacted atomically). -/
def PoolInv (p : Pool) : Prop :=
  p.cur_th_num = p.thread_info.length ∧
  p.min_th_num ≤ p.cur_th_num ∧
  p.cur_th_num ≤ p.max_th_num ∧
  0 < p.min_th_num ∧
  ∀ sl ∈ p.thread_info, sl.is_busy = sl.th_job.isSome ∧ sl.exit = false

/-- Number of slots currently holding job token `j`. -/
def jobCount (j : Nat) (p : Pool) : Nat :=
  p.thread_info.countP (fun sl => sl.th_job == some j)

/-- System invariant: the pool invariant plus token conservation — every
submitted token is either still held by a slot or already executed. -/
def SysInv (s : Sys) : Prop :=
  PoolInv s.pool ∧
  ∀ j, s.executed.count j + jobCount j s.pool = s.submitted.count j

/-! ### Concrete states used to exercise the theorems -/

/-- A worker slot currently running job token 5. -/
def busySlot : ThreadInfo :=
  { thread_id := 0, is_busy := true, th_job := some 5, exit := false, is_wait := false }

/-- A saturated one-slot pool: `cur = max = 1`, the only worker busy. -/
def busyPool1 : Pool :=
  { min_th_num := 1, cur_th_num := 1, max_th_num := 1,
    thread_info := [busySlot], next_id := 1 }

/-- A two-slot pool with one busy and one idle worker. -/
def mixedPool : Pool :=
  { min_th_num := 1, cur_th_num := 2, max_th_num := 2,
    thread_info := [busySlot, mkSlot 1], next_id := 2 }

/-- A fully busy pool below capacity: utilization 1 with room to grow. -/
def hotPool : Pool :=
  { min_th_num := 1, cur_th_num := 2, max_th_num := 3,
    thread_info := [busySlot,
      { thread_id := 1, is_busy := true, th_job := some 6, exit := false, is_wait := false }],
    next_id := 2 }

/-- The initial system state of `create_thread_pool 1 2`. -/
def sys0 : Sys :=
  { pool := { min_th_num := 1, cur_th_num := 1, max_th_num := 2,
              thread_info := [mkSlot 0], next_id := 1 },
    executed := [], submitted := [] }

/-- The pool of `create_thread_pool 1 1`. -/
def jobPool0 : Pool :=
  { min_th_num := 1, cur_th_num := 1, max_th_num := 1,
    thread_info := [mkSlot 0], next_id := 1 }

/-- `jobPool0` after submitting job token 7 to its idle slot. -/
def jobPool1 : Pool :=
  { jobPool0 with thread_info := [assignJob 7 (mkSlot 0)] }

/-- System state at creation of `jobPool0`. -/
def jobSys0 : Sys := { pool := jobPool0, executed := [], submitted := [] }

/-- System state after submitting job token 7. -/
def jobSys1 : Sys := { pool := jobPool1, executed := [], submitted := [7] }

/-- System state after the worker ran job token 7. -/
def jobSys2 : Sys :=
  { pool := tp_run_job jobPool1 0, executed := [7], submitted := [7] }

/-! ### Helper lemmas about the list scans and updates -/

theorem get?_some_mem {l : List α} : ∀ {i : Nat} {x : α}, l.get? i = some x → x ∈ l := by
  induction l with
  | nil => intro i x h; simp [List.get?] at h
  | cons a as ih =>
      intro i x h
      cases i with
      | zero =>
          simp [List.get?] at h
          exact h ▸ List.mem_cons_self a as
      | succ n => exact List.mem_cons_of_mem a (ih h)

theorem get?_some_lt {l : List α} : ∀ {i : Nat} {x : α}, l.get? i = some x → i < l.length := by
  induction l with
  | nil => intro i x h; simp [List.get?] at h
  | cons a as ih =>
      intro i x h
      cases i with
      | zero => simp
      | succ n => exact Nat.succ_lt_succ (ih h)

theorem findIndex_eq_none_iff {p : α → Bool} :
    ∀ {l : List α}, findIndex p l = none ↔ ∀ x ∈ l, p x = false := by
  intro l
  induction l with
  | nil => simp [findIndex]
  | cons a as ih =>
      by_cases hp : p a = true
      · constructor
        · intro h; exact absurd h (by simp [findIndex, hp])
        · intro h; exact absurd (h a (List.mem_cons_self a as)) (by simp [hp])
      · simp only [Bool.not_eq_true] at hp
        constructor
        · intro h x hx
          rcases List.mem_cons.mp hx with rfl | hx'
          · exact hp
          · have : findIndex p as = none := by
              by_contra hne
              rcases Option.ne_none_iff_exists'.mp hne with ⟨i, hi⟩
              simp [findIndex, hp, hi] at h
            exact ih.mp this x hx'
        · intro h
          have : findIndex p as = none := ih.mpr (fun x hx => h x (List.mem_cons_of_mem a hx))
          simp [findIndex, hp, this]

theorem findIndex_eq_some {p : α → Bool} :
    ∀ {l : List α} {i : Nat}, findIndex p l = some i → ∃ x, l.get? i = some x ∧ p x = true := by
  intro l
  induction l with
  | nil => intro i h; simp [findIndex] at h
  | cons a as ih =>
      intro i h
      by_cases hp : p a = true
      · simp [findIndex, hp] at h
        exact ⟨a, by simp [← h, List.get?], hp⟩
      · simp only [Bool.not_eq_true] at hp
        simp [findIndex, hp] at h
        rcases h with ⟨i', hi', rfl⟩
        rcases ih hi' with ⟨x, hx, hpx⟩
        exact ⟨x, by simpa [List.get?] using hx, hpx⟩

theorem length_modifyAt (f : α → α) : ∀ (i : Nat) (l : List α),
    (modifyAt f i l).length = l.length
  | _, [] => by simp [modifyAt]
  | 0, _ :: _ => by simp [modifyAt]
  | n + 1, _ :: xs => by simp [modifyAt, length_modifyAt f n xs]

theorem mem_modifyAt {f : α → α} :
    ∀ {l : List α} {i : Nat} {y : α}, y ∈ modifyAt f i l →
      y ∈ l ∨ ∃ x, l.get? i = some x ∧ y = f x := by
  intro l
  induction l with
  | nil => intro i y h; simp [modifyAt] at h
  | cons a as ih =>
      intro i y h
      cases i with
      | zero =>
          rcases List.mem_cons.mp h with rfl | h'
          · exact Or.inr ⟨a, by simp [List.get?], rfl⟩
          · exact Or.inl (List.mem_cons_of_mem a h')
      | succ n =>
          rcases List.mem_cons.mp h with rfl | h'
          · exact Or.inl (List.mem_cons_self y as)
          · rcases ih h' with h'' | ⟨x, hx, hy⟩
            · exact Or.inl (List.mem_cons_of_mem a h'')
            · exact Or.inr ⟨x, by simpa [List.get?] using hx, hy⟩

theorem countP_modifyAt (q : α → Bool) (f : α → α) :
    ∀ {l : List α} {i : Nat} {x : α}, l.get? i = some x →
      (modifyAt f i l).countP q + (if q x then 1 else 0)
        = l.countP q + (if q (f x) then 1 else 0) := by
  intro l
  induction l with
  | nil => intro i x h; simp [List.get?] at h
  | cons a as ih =>
      intro i x h
      cases i with
      | zero =>
          simp [List.get?] at h
          subst h
          simp [modifyAt, List.countP_cons]
          omega
      | succ n =>
          have h' : as.get? n = some x := h
          have := ih h'
          simp [modifyAt, List.countP_cons]
          omega

theorem mem_removeAt :
    ∀ {l : List α} {i : Nat} {y : α}, y ∈ removeAt i l → y ∈ l := by
  intro l
  induction l with
  | nil => intro i y h; simp [removeAt] at h
  | cons a as ih =>
      intro i y h
      cases i with
      | zero => exact List.mem_cons_of_mem a h
      | succ n =>
          rcases List.mem_cons.mp h with rfl | h'
          · exact List.mem_cons_self y as
          · exact List.mem_cons_of_mem a (ih h')

theorem length_removeAt :
    ∀ {l : List α} {i : Nat}, i < l.length → (removeAt i l).length = l.length - 1 := by
  intro l
  induction l with
  | nil => intro i h; simp at h
  | cons a as ih =>
      intro i h
      cases i with
      | zero => simp [removeAt]
      | succ n =>
          have hn : n < as.length := Nat.lt_of_succ_lt_succ h
          have : as.length ≠ 0 := by omega
          simp [removeAt, ih hn]
          omega

theorem countP_removeAt (q : α → Bool) :
    ∀ {l : List α} {i : Nat} {x : α}, l.get? i = some x →
      (removeAt i l).countP q + (if q x then 1 else 0) = l.countP q := by
  intro l
  induction l with
  | nil => intro i x h; simp [List.get?] at h
  | cons a as ih =>
      intro i x h
      cases i with
      | zero =>
          simp [List.get?] at h
          subst h
          simp [removeAt, List.countP_cons]
      | succ n =>
          have h' : as.get? n = some x := h
          have := ih h'
          simp [removeAt, List.countP_cons]
          omega

theorem mkSlot_no_job (k : Nat) (id : Nat) :
    ((fun sl => sl.th_job == some k) (mkSlot id)) = false := rfl

theorem idle_no_job {p : Pool} {sl : ThreadInfo} (hp : PoolInv p)
    (hmem : sl ∈ p.thread_info) (hidle : sl.is_busy = false) : sl.th_job = none := by
  have h := (hp.2.2.2.2 sl hmem).1
  rw [hidle] at h
  exact Option.not_isSome_iff_eq_none.mp (by simp [← h])

theorem tp_add_thread_inv {p : Pool} (ok : Bool)
    (hlt : p.cur_th_num < p.max_th_num) (hp : PoolInv p) :
    PoolInv (tp_add_thread ok p).2 ∧ ∀ k, jobCount k (tp_add_thread ok p).2 = jobCount k p := by
  obtain ⟨hlen, hmin, hmax, hpos, hsl⟩ := hp
  cases ok with
  | false => exact ⟨⟨hlen, hmin, hmax, hpos, hsl⟩, fun k => rfl⟩
  | true =>
      refine ⟨⟨?_, ?_, ?_, hpos, ?_⟩, ?_⟩
      · simp [tp_add_thread, hlen]
      · exact Nat.le_succ_of_le hmin
      · exact hlt
      · intro sl hmem
        simp only [tp_add_thread] at hmem
        rcases List.mem_append.mp hmem with h' | h'
        · exact hsl sl h'
        · simp at h'
          subst h'
          exact ⟨rfl, rfl⟩
      · intro k
        simp [tp_add_thread, jobCount, List.countP_append, List.countP_cons, mkSlot]

theorem tp_delete_thread_inv {p : Pool}
    (hgt : p.min_th_num < p.cur_th_num) (hp : PoolInv p) :
    PoolInv (tp_delete_thread p).2 ∧ ∀ k, jobCount k (tp_delete_thread p).2 = jobCount k p := by
  obtain ⟨hlen, hmin, hmax, hpos, hsl⟩ := hp
  cases hfi : findIndex (fun sl => !sl.is_busy) p.thread_info with
  | none =>
      simp only [tp_delete_thread, hfi]
      exact ⟨⟨hlen, hmin, hmax, hpos, hsl⟩, by simp⟩
  | some i =>
      rcases findIndex_eq_some hfi with ⟨x, hx, hpx⟩
      have hxbusy : x.is_busy = false := by
        cases hb : x.is_busy
        · rfl
        · rw [hb] at hpx; exact absurd hpx (by simp)
      have hxjob : x.th_job = none := idle_no_job ⟨hlen, hmin, hmax, hpos, hsl⟩ (get?_some_mem hx) hxbusy
      have hilt : i < p.thread_info.length := get?_some_lt hx
      refine ⟨⟨?_, ?_, ?_, ?_, ?_⟩, ?_⟩
      · simp [tp_delete_thread, hfi, length_removeAt hilt, hlen]
      · simp only [tp_delete_thread, hfi]
        omega
      · simp only [tp_delete_thread, hfi]
        exact Nat.le_trans (Nat.sub_le _ _) hmax
      · simp only [tp_delete_thread, hfi]
        exact hpos
      · intro sl hmem
        simp only [tp_delete_thread, hfi] at hmem
        exact hsl sl (mem_removeAt hmem)
      · intro k
        have := countP_removeAt (fun sl => sl.th_job == some k) hx
        simp only [tp_delete_thread, hfi, jobCount]
        simp [hxjob] at this
        exact this

theorem tp_manage_thread_inv {p : Pool} (ok : Bool) (hp : PoolInv p) :
    PoolInv (tp_manage_thread ok p) ∧
      ∀ k, jobCount k (tp_manage_thread ok p) = jobCount k p := by
  unfold tp_manage_thread
  by_cases h1 : 2 * busyCount p > p.cur_th_num ∧ p.cur_th_num < p.max_th_num
  · simp only [h1, if_true]
    exact tp_add_thread_inv ok h1.2 hp
  · simp only [h1, if_false]
    by_cases h2 : 2 * busyCount p < p.cur_th_num ∧ p.min_th_num < p.cur_th_num
    · simp only [h2, if_true]
      exact tp_delete_thread_inv h2.2 hp
    · simp only [h2, if_false]
      exact ⟨hp, by simp⟩

theorem tp_process_job_ok_inv {p : Pool} {j : Nat} {p' : Pool}
    (h : tp_process_job p j = (Except.ok (), p')) (hp : PoolInv p) :
    PoolInv p' ∧ ∀ k, jobCount k p' = jobCount k p + (if j = k then 1 else 0) := by
  obtain ⟨hlen, hmin, hmax, hpos, hsl⟩ := hp
  unfold tp_process_job at h
  cases hfi : findIndex idleSlot p.thread_info with
  | some i =>
      rw [hfi] at h
      have hp' : { p with thread_info := modifyAt (assignJob j) i p.thread_info } = p' :=
        congrArg Prod.snd h
      rcases findIndex_eq_some hfi with ⟨x, hx, hpx⟩
      have hxbusy : x.is_busy = false := by
        simp [idleSlot, Bool.and_eq_true] at hpx
        exact hpx.1
      have hxjob : x.th_job = none :=
        idle_no_job ⟨hlen, hmin, hmax, hpos, hsl⟩ (get?_some_mem hx) hxbusy
      subst hp'
      refine ⟨⟨?_, hmin, hmax, hpos, ?_⟩, ?_⟩
      · simp [length_modifyAt, hlen]
      · intro sl hmem
        simp only at hmem
        rcases mem_modifyAt hmem with h' | ⟨y, hy, rfl⟩
        · exact hsl sl h'
        · exact ⟨rfl, (hsl y (get?_some_mem hy)).2⟩
      · intro k
        have := countP_modifyAt (fun sl => sl.th_job == some k) (assignJob j) hx
        simp only [jobCount]
        simp [hxjob, assignJob] at this
        by_cases hjk : j = k
        · subst hjk; simp at this ⊢; omega
        · simp [hjk] at this ⊢; omega
  | none =>
      rw [hfi] at h
      by_cases hlt : p.cur_th_num < p.max_th_num
      · rw [if_pos hlt] at h
        have hp' :
            { p with
              cur_th_num := p.cur_th_num + 1
              thread_info := p.thread_info ++ [assignJob j (mkSlot p.next_id)]
              next_id := p.next_id + 1 } = p' := congrArg Prod.snd h
        subst hp'
        refine ⟨⟨?_, Nat.le_succ_of_le hmin, hlt, hpos, ?_⟩, ?_⟩
        · simp [hlen]
        · intro sl hmem
          simp only at hmem
          rcases List.mem_append.mp hmem with h' | h'
          · exact hsl sl h'
          · simp at h'
            subst h'
            exact ⟨rfl, rfl⟩
        · intro k
          simp only [jobCount]
          by_cases hjk : j = k
          · subst hjk
            simp [List.countP_append, List.countP_cons, assignJob, mkSlot]
          · simp [List.countP_append, List.countP_cons, assignJob, mkSlot, hjk]
      · rw [if_neg hlt] at h
        exact absurd (congrArg Prod.fst h) (by simp)

theorem tp_run_job_inv {p : Pool} {i : Nat} {sl : ThreadInfo} {j : Nat}
    (hsl : p.thread_info.get? i = some sl) (hj : sl.th_job = some j) (hp : PoolInv p) :
    PoolInv (tp_run_job p i) ∧
      ∀ k, jobCount k (tp_run_job p i) + (if j = k then 1 else 0) = jobCount k p := by
  obtain ⟨hlen, hmin, hmax, hpos, hslot⟩ := hp
  refine ⟨⟨?_, hmin, hmax, hpos, ?_⟩, ?_⟩
  · simp [tp_run_job, length_modifyAt, hlen]
  · intro y hy
    simp only [tp_run_job] at hy
    rcases mem_modifyAt hy with h' | ⟨x, hx, rfl⟩
    · exact hslot y h'
    · exact ⟨rfl, (hslot x (get?_some_mem hx)).2⟩
  · intro k
    have := countP_modifyAt (fun s => s.th_job == some k) finishJob hsl
    simp only [tp_run_job, jobCount]
    simp [hj, finishJob] at this
    by_cases hjk : j = k
    · subst hjk; simp at this ⊢; omega
    · simp [hjk] at this ⊢; omega

theorem init_inv {s : Sys} (h : SysInit s) : SysInv s := by
  rcases h with ⟨mn, mx, p, hcreate, rfl⟩
  unfold create_thread_pool at hcreate
  by_cases hv : 0 < mn ∧ mn ≤ mx
  · rw [if_pos hv] at hcreate
    have hp : _ = p := Except.ok.inj hcreate
    subst hp
    refine ⟨⟨?_, Nat.le_refl _, ?_, ?_, ?_⟩, ?_⟩
    · simp
    · simp only
      omega
    · simp only
      omega
    · intro sl hmem
      simp only [List.mem_map] at hmem
      rcases hmem with ⟨i, _, rfl⟩
      exact ⟨rfl, rfl⟩
    · intro j
      simp only [List.count_nil, jobCount, Nat.zero_add]
      have hz : ∀ sl ∈ List.map mkSlot (List.range mn.toNat),
          ¬((fun sl => sl.th_job == some j) sl = true) := by
        intro sl hmem
        simp only [List.mem_map] at hmem
        rcases hmem with ⟨i, _, rfl⟩
        simp [mkSlot]
      simp [List.countP_eq_zero.mpr hz]
  · rw [if_neg hv] at hcreate
    exact absurd hcreate (by simp)

theorem step_inv {s s' : Sys} (h : Step s s') (hs : SysInv s) : SysInv s' := by
  obtain ⟨hp, hcons⟩ := hs
  cases h with
  | submit j p' hok =>
      obtain ⟨hp', hjc⟩ := tp_process_job_ok_inv hok hp
      refine ⟨hp', ?_⟩
      intro k
      have hc := hcons k
      have hj := hjc k
      simp only [List.count_cons]
      by_cases hjk : k = j
      · subst hjk
        simp at hj ⊢
        omega
      · simp [hjk, Ne.symm hjk] at hj ⊢
        omega
  | run i sl j hsl hjob =>
      obtain ⟨hp', hjc⟩ := tp_run_job_inv hsl hjob hp
      refine ⟨hp', ?_⟩
      intro k
      have hc := hcons k
      have hj := hjc k
      simp only [List.count_cons]
      by_cases hjk : k = j
      · subst hjk
        simp at hj ⊢
        omega
      · simp [hjk, Ne.symm hjk] at hj ⊢
        omega
  | tick spawnOk =>
      obtain ⟨hp', hjc⟩ := tp_manage_thread_inv spawnOk hp
      refine ⟨hp', ?_⟩
      intro k
      rw [hjc k]
      exact hcons k

theorem reachable_inv {s : Sys} (h : Reachable s) : SysInv s := by
  rcases h with ⟨s₀, h₀, hsteps⟩
  induction hsteps with
  | refl => exact init_inv h₀
  | tail _ hstep ih => exact step_inv hstep ih

/-! ### The claims -/

/-- C1: `create_pool(min_count, max_count)` succeeds if and only if
`0 < min_count ≤ max_count`, failing with `InvalidConfig` otherwise, and for
every valid pair the returned pool's `current_count` equals `min_count`. -/
theorem create_pool_spec (min_num max_num : Int) :
    ((∃ p, create_thread_pool min_num max_num = Except.ok p) ↔
        0 < min_num ∧ min_num ≤ max_num)
    ∧ (¬(0 < min_num ∧ min_num ≤ max_num) →
        create_thread_pool min_num max_num = Except.error TpError.InvalidConfig)
    ∧ (∀ p, create_thread_pool min_num max_num = Except.ok p →
        (p.cur_th_num : Int) = min_num) := by
  by_cases hv : 0 < min_num ∧ min_num ≤ max_num
  · refine ⟨⟨fun _ => hv, fun _ => ⟨_, by rw [create_thread_pool, if_pos hv]⟩⟩,
      fun h => absurd hv h, ?_⟩
    intro p hp
    rw [create_thread_pool, if_pos hv] at hp
    have h' := Except.ok.inj hp
    subst h'
    exact Int.toNat_of_nonneg (le_of_lt hv.1)
  · refine ⟨⟨?_, fun h => absurd h hv⟩, fun _ => by rw [create_thread_pool, if_neg hv], ?_⟩
    · rintro ⟨p, hp⟩
      rw [create_thread_pool, if_neg hv] at hp
      exact absurd hp (by simp)
    · intro p hp
      rw [create_thread_pool, if_neg hv] at hp
      exact absurd hp (by simp)

/-- Witness for C1 at the valid pair `(2, 3)`. -/
theorem create_pool_spec_witness :
    ∃ p, create_thread_pool 2 3 = Except.ok p ∧ p.cur_th_num = 2 := by
  obtain ⟨h1, _, h3⟩ := create_pool_spec 2 3
  obtain ⟨p, hp⟩ := h1.mpr (by decide)
  refine ⟨p, hp, ?_⟩
  have := h3 p hp
  omega

/-- C3: in the default non-blocking mode, submitting while
`current_count == max_count` and every worker is busy returns `PoolSaturated`
and leaves the pool unchanged. -/
theorem tp_process_job_saturated (p : Pool) (j : Nat)
    (hfull : p.cur_th_num = p.max_th_num)
    (hbusy : ∀ sl ∈ p.thread_info, sl.is_busy = true) :
    tp_process_job p j = (Except.error TpError.PoolSaturated, p) := by
  have hfi : findIndex idleSlot p.thread_info = none := by
    apply findIndex_eq_none_iff.mpr
    intro x hx
    simp [idleSlot, hbusy x hx]
  unfold tp_process_job
  rw [hfi, if_neg (by omega)]

/-- Witness for C3: the saturated one-slot pool rejects job 9 unchanged. -/
theorem tp_process_job_saturated_witness :
    tp_process_job busyPool1 9 = (Except.error TpError.PoolSaturated, busyPool1) :=
  tp_process_job_saturated busyPool1 9 rfl (by decide)

/-- C6: `delete_thread` only ever selects an idle (`is_busy=false`) worker
and removes exactly that slot; it fails with `NoIdleWorker` if and only if
every live worker is busy, in which case the pool is untouched and no worker
is signalled to exit. -/
theorem tp_delete_thread_spec (p : Pool) :
    ((tp_delete_thread p).1 = Except.error TpError.NoIdleWorker ↔
        ∀ sl ∈ p.thread_info, sl.is_busy = true)
    ∧ ((tp_delete_thread p).1 = Except.error TpError.NoIdleWorker →
        (tp_delete_thread p).2 = p)
    ∧ (∀ u : Unit, (tp_delete_thread p).1 = Except.ok u →
        ∃ i sl, p.thread_info.get? i = some sl ∧ sl.is_busy = false ∧
          (tp_delete_thread p).2 =
            { p with cur_th_num := p.cur_th_num - 1,
                     thread_info := removeAt i p.thread_info }) := by
  cases hfi : findIndex (fun sl => !sl.is_busy) p.thread_info with
  | none =>
      have hall : ∀ sl ∈ p.thread_info, sl.is_busy = true := by
        intro x hx
        have := findIndex_eq_none_iff.mp hfi x hx
        simpa using this
      refine ⟨⟨fun _ => hall, fun _ => by simp [tp_delete_thread, hfi]⟩,
        fun _ => by simp [tp_delete_thread, hfi], ?_⟩
      intro u hu
      simp [tp_delete_thread, hfi] at hu
  | some i =>
      rcases findIndex_eq_some hfi with ⟨x, hx, hpx⟩
      have hxb : x.is_busy = false := by simpa using hpx
      refine ⟨⟨?_, ?_⟩, ?_, ?_⟩
      · intro habs
        simp [tp_delete_thread, hfi] at habs
      · intro hall
        exact absurd (hall x (get?_some_mem hx)) (by simp [hxb])
      · intro habs
        simp [tp_delete_thread, hfi] at habs
      · intro u _
        exact ⟨i, x, hx, hxb, by simp [tp_delete_thread, hfi]⟩

/-- Witness for C6 on the mixed pool: the idle slot (index 1) is the one
removed. -/
theorem tp_delete_thread_spec_witness :
    ∃ i sl, mixedPool.thread_info.get? i = some sl ∧ sl.is_busy = false ∧
      (tp_delete_thread mixedPool).2 =
        { mixedPool with cur_th_num := mixedPool.cur_th_num - 1,
                         thread_info := removeAt i mixedPool.thread_info } :=
  (tp_delete_thread_spec mixedPool).2.2 () rfl

/-- C7: when `add_thread` fails with `SpawnFailure`, the pool — in
particular `current_count` — is left unchanged: no half-added slot
remains. -/
theorem tp_add_thread_failure (ok : Bool) (p : Pool)
    (h : (tp_add_thread ok p).1 = Except.error TpError.SpawnFailure) :
    (tp_add_thread ok p).2 = p ∧ (tp_add_thread ok p).2.cur_th_num = p.cur_th_num := by
  cases ok with
  | false => exact ⟨rfl, rfl⟩
  | true => simp [tp_add_thread] at h

/-- Witness for C7: a failed spawn on the mixed pool changes nothing. -/
theorem tp_add_thread_failure_witness :
    (tp_add_thread false mixedPool).2 = mixedPool ∧
      (tp_add_thread false mixedPool).2.cur_th_num = mixedPool.cur_th_num :=
  tp_add_thread_failure false mixedPool rfl

/-- C9: `get_status` is a pure query: it returns the snapshot
`{current_count, busy_count, min_count, max_count}` of the pool's counters
and leaves the whole pool state, every slot included, unchanged. -/
theorem tp_get_tp_status_spec (p : Pool) :
    (tp_get_tp_status p).2 = p
    ∧ (tp_get_tp_status p).1.current_count = p.cur_th_num
    ∧ (tp_get_tp_status p).1.busy_count = p.thread_info.countP (fun sl => sl.is_busy)
    ∧ (tp_get_tp_status p).1.min_count = p.min_th_num
    ∧ (tp_get_tp_status p).1.max_count = p.max_th_num :=
  ⟨rfl, rfl, rfl, rfl, rfl⟩

/-- C10: `get_thread_by_id` returns an index of the `thread_info` slot whose
`thread_id` equals the given identity, the distinguished value `none` exactly
when no slot has that identity, and modifies nothing. -/
theorem tp_get_thread_by_id_spec (p : Pool) (id : Nat) :
    (tp_get_thread_by_id p id).2 = p
    ∧ (∀ i, (tp_get_thread_by_id p id).1 = some i →
        ∃ sl, p.thread_info.get? i = some sl ∧ sl.thread_id = id)
    ∧ ((tp_get_thread_by_id p id).1 = none ↔
        ∀ sl ∈ p.thread_info, sl.thread_id ≠ id) := by
  refine ⟨rfl, ?_, ?_⟩
  · intro i hi
    simp only [tp_get_thread_by_id] at hi
    rcases findIndex_eq_some hi with ⟨x, hx, hpx⟩
    exact ⟨x, hx, by simpa using hpx⟩
  · simp only [tp_get_thread_by_id]
    rw [findIndex_eq_none_iff]
    constructor
    · intro h sl hmem
      simpa using h sl hmem
    · intro h sl hmem
      simpa using h sl hmem

/-- Witness for C10: identity 1 is found at index 1 of the mixed pool. -/
theorem tp_get_thread_by_id_spec_witness :
    ∃ sl, mixedPool.thread_info.get? 1 = some sl ∧ sl.thread_id = 1 :=
  (tp_get_thread_by_id_spec mixedPool 1).2.1 1 rfl

theorem util_gt_half (b c : Nat) (hc : 0 < c) :
    ((b : ℚ) / (c : ℚ) > 1/2) ↔ c < 2 * b := by
  rw [gt_iff_lt, div_lt_div_iff₀ (by norm_num) (by exact_mod_cast hc)]
  constructor
  · intro h
    exact_mod_cast (by linarith : (c : ℚ) < 2 * (b : ℚ))
  · intro h
    have h' : (c : ℚ) < 2 * (b : ℚ) := by exact_mod_cast h
    linarith

theorem util_lt_half (b c : Nat) (hc : 0 < c) :
    ((b : ℚ) / (c : ℚ) < 1/2) ↔ 2 * b < c := by
  rw [div_lt_div_iff₀ (by exact_mod_cast hc) (by norm_num)]
  constructor
  · intro h
    exact_mod_cast (by linarith : 2 * (b : ℚ) < (c : ℚ))
  · intro h
    have h' : 2 * (b : ℚ) < (c : ℚ) := by exact_mod_cast h
    linarith

/-- C2: on a manager tick with `utilization = busy_count / current_count`
and the fixed header constants `BUSY_THRESHOLD = 0.5` and
`MANAGE_INTERVAL = 5`: if utilization exceeds the threshold and
`current_count < max_count` the manager adds a thread; else if utilization
is below the threshold and `current_count > min_count` it calls
`delete_thread` (best-effort, a `NoIdleWorker` failure leaving the pool as
is); in every other case it performs no resize. -/
theorem tp_manage_thread_spec (p : Pool) (ok : Bool) (h : 0 < p.cur_th_num) :
    BUSY_THRESHOLD = 1/2 ∧ MANAGE_INTERVAL = 5
    ∧ ((busyCount p : ℚ) / (p.cur_th_num : ℚ) > BUSY_THRESHOLD →
        p.cur_th_num < p.max_th_num →
        tp_manage_thread ok p = (tp_add_thread ok p).2)
    ∧ ((busyCount p : ℚ) / (p.cur_th_num : ℚ) < BUSY_THRESHOLD →
        p.min_th_num < p.cur_th_num →
        tp_manage_thread ok p = (tp_delete_thread p).2)
    ∧ (¬((busyCount p : ℚ) / (p.cur_th_num : ℚ) > BUSY_THRESHOLD ∧
          p.cur_th_num < p.max_th_num) →
       ¬((busyCount p : ℚ) / (p.cur_th_num : ℚ) < BUSY_THRESHOLD ∧
          p.min_th_num < p.cur_th_num) →
        tp_manage_thread ok p = p) := by
  have hgt := util_gt_half (busyCount p) p.cur_th_num h
  have hlt := util_lt_half (busyCount p) p.cur_th_num h
  refine ⟨rfl, rfl, ?_, ?_, ?_⟩
  · intro hu hcap
    have ha : 2 * busyCount p > p.cur_th_num := hgt.mp hu
    rw [tp_manage_thread, if_pos ⟨ha, hcap⟩]
  · intro hu hmin
    have hd : 2 * busyCount p < p.cur_th_num := hlt.mp hu
    rw [tp_manage_thread, if_neg (by omega), if_pos ⟨hd, hmin⟩]
  · intro hn1 hn2
    have g1 : ¬(2 * busyCount p > p.cur_th_num ∧ p.cur_th_num < p.max_th_num) := by
      rintro ⟨ha, hb⟩
      exact hn1 ⟨hgt.mpr ha, hb⟩
    have g2 : ¬(2 * busyCount p < p.cur_th_num ∧ p.min_th_num < p.cur_th_num) := by
      rintro ⟨ha, hb⟩
      exact hn2 ⟨hlt.mpr ha, hb⟩
    rw [tp_manage_thread, if_neg g1, if_neg g2]

/-- Witness for C2: the fully busy two-worker pool below capacity grows on a
tick. -/
theorem tp_manage_thread_spec_witness :
    tp_manage_thread true hotPool = (tp_add_thread true hotPool).2 := by
  have h := (tp_manage_thread_spec hotPool true (by decide)).2.2.1
  apply h
  · show ((2 : ℕ) : ℚ) / ((2 : ℕ) : ℚ) > BUSY_THRESHOLD
    rw [BUSY_THRESHOLD]
    norm_num
  · decide

/-- C4: for every successful `submit` of a job token that is submitted once,
at most one worker slot ever holds the token, it is executed at most once,
and once no slot holds it any longer (its `is_busy` having dropped back) it
has been executed exactly once — never zero, never two times. -/
theorem submit_exactly_once (s : Sys) (j : Nat) (hs : Reachable s)
    (hone : s.submitted.count j = 1) :
    s.executed.count j ≤ 1
    ∧ jobCount j s.pool ≤ 1
    ∧ (jobCount j s.pool = 0 → s.executed.count j = 1) := by
  have h := (reachable_inv hs).2 j
  omega

/-- Witness for C4: the concrete trace create → submit 7 → run executes
job 7 exactly once. -/
theorem submit_exactly_once_witness : jobSys2.executed.count 7 = 1 := by
  have hreach : Reachable jobSys2 := by
    refine ⟨jobSys0, ⟨1, 1, jobPool0, rfl, rfl⟩, ?_⟩
    have h1 : Step jobSys0 jobSys1 := Step.submit jobSys0 7 jobPool1 rfl
    have h2 : Step jobSys1 jobSys2 :=
      Step.run jobSys1 0 (assignJob 7 (mkSlot 0)) 7 rfl rfl
    exact Relation.ReflTransGen.tail
      (Relation.ReflTransGen.tail Relation.ReflTransGen.refl h1) h2
  exact (submit_exactly_once jobSys2 7 hreach rfl).2.2 rfl

/-- C5: at every status snapshot of a pool reachable from creation, the
counters satisfy `0 ≤ busy_count ≤ current_count ≤ max_count` and
`current_count ≥ min_count` (deletions being atomic in this model, no
transient undershoot arises). -/
theorem status_snapshot_bounds (s : Sys) (hs : Reachable s) :
    0 ≤ (tp_get_tp_status s.pool).1.busy_count
    ∧ (tp_get_tp_status s.pool).1.busy_count ≤ (tp_get_tp_status s.pool).1.current_count
    ∧ (tp_get_tp_status s.pool).1.current_count ≤ (tp_get_tp_status s.pool).1.max_count
    ∧ (tp_get_tp_status s.pool).1.min_count ≤ (tp_get_tp_status s.pool).1.current_count := by
  obtain ⟨⟨hlen, hmin, hmax, hpos, hsl⟩, _⟩ := reachable_inv hs
  refine ⟨Nat.zero_le _, ?_, hmax, hmin⟩
  show busyCount s.pool ≤ s.pool.cur_th_num
  rw [hlen]
  exact List.countP_le_length _

/-- Witness for C5 at the freshly created pool of `create_thread_pool 1 2`. -/
theorem status_snapshot_bounds_witness :
    0 ≤ (tp_get_tp_status sys0.pool).1.busy_count
    ∧ (tp_get_tp_status sys0.pool).1.busy_count ≤ (tp_get_tp_status sys0.pool).1.current_count
    ∧ (tp_get_tp_status sys0.pool).1.current_count ≤ (tp_get_tp_status sys0.pool).1.max_count
    ∧ (tp_get_tp_status sys0.pool).1.min_count ≤ (tp_get_tp_status sys0.pool).1.current_count :=
  status_snapshot_bounds sys0 ⟨sys0, ⟨1, 2, sys0.pool, rfl, rfl⟩, Relation.ReflTransGen.refl⟩

/-- C8: in every reachable state each worker slot holds at most one job (its
single optional payload) and `is_busy` is true exactly when a job is
currently assigned to the slot and not yet finished. -/
theorem slot_busy_iff_job (s : Sys) (hs : Reachable s) :
    ∀ sl ∈ s.pool.thread_info, sl.is_busy = sl.th_job.isSome := by
  intro sl hmem
  exact ((reachable_inv hs).1.2.2.2.2 sl hmem).1

/-- Witness for C8 at the initial slot of the freshly created pool. -/
theorem slot_busy_iff_job_witness :
    (mkSlot 0).is_busy = (mkSlot 0).th_job.isSome :=
  slot_busy_iff_job sys0
    ⟨sys0, ⟨1, 2, sys0.pool, rfl, rfl⟩, Relation.ReflTransGen.refl⟩
    (mkSlot 0) (by decide)

end ThreadPool
